import Mathlib

/-!
Shallow embedding of the DAT Conditional Updater (`update_dat.py`) and proofs
about its rule-evaluation engine, record stream handling, audit logging and
configuration loading.  Byte buffers are modelled as `List Nat`, Python slice
reads/writes are modelled exactly (including clamping and the extension
behaviour of slice assignment past the end of a bytearray), and the fallible
configuration parser is modelled with `Except`.
-/

namespace DatUpdater

/-- Replacement character U+FFFD produced by Python's `errors='replace'` decoding. -/
def replChar : Char := '�'

/-- Encoding of one character as UTF-16 big-endian bytes, as in
`value.encode('utf-16-be')`: a BMP character becomes two bytes (high byte
first), an astral character becomes a four-byte surrogate pair. -/
def encodeChar (c : Char) : List Nat :=
  let n := c.toNat
  if n < 0x10000 then [n / 256, n % 256]
  else
    let v := n - 0x10000
    let hi := 0xD800 + v / 0x400
    let lo := 0xDC00 + v % 0x400
    [hi / 256, hi % 256, lo / 256, lo % 256]

/-- UTF-16 big-endian encoding of a character list. -/
def encodeChars : List Char → List Nat
  | [] => []
  | c :: cs => encodeChar c ++ encodeChars cs

/-- Model of `value.encode('utf-16-be')` on a Python `str`. -/
def encodeUtf16be (s : String) : List Nat := encodeChars s.data

/-- Model of `bytes.decode('utf-16-be', errors='replace')`: big-endian 16-bit
units, surrogate pairs combined, unpaired surrogates and a trailing odd byte
replaced by U+FFFD. -/
def decodeUtf16be : List Nat → List Char
  | [] => []
  | [_] => [replChar]
  | [b0, b1] =>
    let u := b0 * 256 + b1
    if 0xD800 ≤ u ∧ u < 0xE000 then [replChar] else [Char.ofNat u]
  | [b0, b1, _] =>
    let u := b0 * 256 + b1
    if 0xD800 ≤ u ∧ u < 0xE000 then [replChar, replChar] else [Char.ofNat u, replChar]
  | b0 :: b1 :: b2 :: b3 :: rest2 =>
    let u := b0 * 256 + b1
    if 0xD800 ≤ u ∧ u < 0xDC00 then
      let u2 := b2 * 256 + b3
      if 0xDC00 ≤ u2 ∧ u2 < 0xE000 then
        Char.ofNat (0x10000 + (u - 0xD800) * 0x400 + (u2 - 0xDC00)) :: decodeUtf16be rest2
      else replChar :: decodeUtf16be (b2 :: b3 :: rest2)
    else if 0xDC00 ≤ u ∧ u < 0xE000 then
      replChar :: decodeUtf16be (b2 :: b3 :: rest2)
    else
      Char.ofNat u :: decodeUtf16be (b2 :: b3 :: rest2)

/-- Python slice bound normalisation: clamp index `i` of a sequence of length
`n` into `[0, n]`, counting from the end when negative. -/
def pyBound (n : Nat) (i : Int) : Nat :=
  if i < 0 then n - min n (-i).toNat else min i.toNat n

/-- Model of reading `record[off : off + len]` from a Python bytes/bytearray. -/
def pySliceGet (r : List Nat) (off : Int) (len : Nat) : List Nat :=
  (r.take (pyBound r.length (off + len))).drop (pyBound r.length off)

/-- Model of the Python slice assignment
`record[off : off + len(new)] = new` on a bytearray: the addressed slice is
replaced by `new`; if the slice lies (partly) past the end, the bytearray
grows. -/
def pySliceSet (r : List Nat) (off : Int) (new : List Nat) : List Nat :=
  let s := pyBound r.length off
  let e := max (pyBound r.length (off + new.length)) s
  r.take s ++ new ++ r.drop e

/-- Decidable equality for `Except`, needed to evaluate the configuration
parser on concrete inputs. -/
instance {ε α : Type} [DecidableEq ε] [DecidableEq α] : DecidableEq (Except ε α) := fun a b =>
  match a, b with
  | .ok x, .ok y =>
    if h : x = y then isTrue (by rw [h]) else isFalse (fun hc => h (Except.ok.inj hc))
  | .error x, .error y =>
    if h : x = y then isTrue (by rw [h]) else isFalse (fun hc => h (Except.error.inj hc))
  | .ok _, .error _ => isFalse (fun hc => Except.noConfusion hc)
  | .error _, .ok _ => isFalse (fun hc => Except.noConfusion hc)

/-- One `Byte:Value` pair of a rule's `Conditions` or `Updates` string:
the dict `{'StartByte': int(byte_pos), 'Value': value}` built by
`parse_conditions`. -/
structure Entry where
  StartByte : Int
  Value : String
deriving DecidableEq

/-- One configured rule: the dict with keys `Name`, `Conditions`, `Updates`. -/
structure Rule where
  Name : String
  Conditions : List Entry
  Updates : List Entry
deriving DecidableEq

/-- One change line appended to `changes` while a rule's updates run:
rule name, 1-based byte position, decoded pre-write value, new value. -/
structure Change where
  ruleName : String
  startByte : Int
  oldText : List Char
  newText : String
deriving DecidableEq

/-- The per-record mutable state of the rule loop in `main`: the record
buffer, the accumulated `changes` lines, and the names of the rules that
matched so far on this record (each name is one `rule_hits` increment;
`has_change` is `fired ≠ []`). -/
structure EvalState where
  record : List Nat
  changes : List Change
  fired : List String
deriving DecidableEq

/-- One condition test of the engine: `expected = cond['Value'].encode('utf-16-be')`,
`actual = bytes(record[offset:offset+len(expected)])`, with
`offset = cond['StartByte'] - 1`; the test is raw byte equality. -/
def condMatches (r : List Nat) (c : Entry) : Bool :=
  let expected := encodeUtf16be c.Value
  pySliceGet r (c.StartByte - 1) expected.length == expected

/-- The record mutation of one update:
`record[offset:offset+len(new_bytes)] = new_bytes`. -/
def applyUpdRecord (r : List Nat) (u : Entry) : List Nat :=
  pySliceSet r (u.StartByte - 1) (encodeUtf16be u.Value)

/-- One update of a matched rule: read the old bytes, decode them for the log,
write the new bytes in place, append one change line. -/
def applyUpd (nm : String) (st : EvalState) (u : Entry) : EvalState :=
  let newBytes := encodeUtf16be u.Value
  let oldBytes := pySliceGet st.record (u.StartByte - 1) newBytes.length
  { record := pySliceSet st.record (u.StartByte - 1) newBytes
    changes := st.changes ++ [⟨nm, u.StartByte, decodeUtf16be oldBytes, u.Value⟩]
    fired := st.fired }

/-- One iteration of `for rule in rules`: conjunctive short-circuit condition
check against the current (possibly already mutated) buffer; on full match
apply every update in order and record the hit. -/
def stepRule (st : EvalState) (rule : Rule) : EvalState :=
  if rule.Conditions.all (condMatches st.record) then
    let st' := rule.Updates.foldl (applyUpd rule.Name) st
    { st' with fired := st'.fired ++ [rule.Name] }
  else st

/-- The whole rule loop of `main` on one data record. -/
def evalRules (rules : List Rule) (r : List Nat) : EvalState :=
  rules.foldl stepRule ⟨r, [], []⟩

/-- Per-record audit output: the source logs a `HEADER - Skip` line for a
header record and an `UPDATED` block (with its change lines) for a data
record on which at least one rule matched; no other record kind produces a
per-record log line. -/
inductive LogEntry where
  | header
  | updated (changes : List Change)
deriving DecidableEq

/-- Result of processing one record: the bytes written to the output file,
the per-record log entries, and the rule names whose hit counters were
incremented on this record. -/
structure RecResult where
  out : List Nat
  logLines : List LogEntry
  fired : List String
deriving DecidableEq

/-- Processing of one record in `main`'s loop: classify by `record[0]`
(header marker first, then data marker, anything else falls through), run the
rule loop on a data record, and always write the resulting buffer. -/
def processRecord (hm dm : Nat) (rules : List Rule) (record : List Nat) : RecResult :=
  let first := record.headD 0
  if first = hm then ⟨record, [.header], []⟩
  else if first = dm then
    let st := evalRules rules record
    if st.fired.isEmpty then ⟨st.record, [], st.fired⟩
    else ⟨st.record, [.updated st.changes], st.fired⟩
  else ⟨record, [], []⟩

/-- The record reads of `main`: `record_count = file_size // RECORD_SIZE` and
the `i`-th read returns bytes `[i*size, i*size+size)`; remainder bytes past
the last full record are never read. -/
def chunkRecords (size : Nat) (data : List Nat) : List (List Nat) :=
  (List.range (data.length / size)).map (fun i => (data.drop (i * size)).take size)

/-- Whole-run record processing. -/
def runResults (size hm dm : Nat) (rules : List Rule) (data : List Nat) : List RecResult :=
  (chunkRecords size data).map (processRecord hm dm rules)

/-- The byte stream written to the output file over a whole run. -/
def runOutput (size hm dm : Nat) (rules : List Rule) (data : List Nat) : List Nat :=
  ((runResults size hm dm rules data).map RecResult.out).flatten

/-- Whitespace test used by Python `str.strip()`. -/
def isPySpace (c : Char) : Bool :=
  decide (c.toNat = 32 ∨ c.toNat = 9 ∨ c.toNat = 10 ∨ c.toNat = 13 ∨ c.toNat = 11 ∨ c.toNat = 12)

/-- Model of Python `str.strip()` on a character list. -/
def trimChars (l : List Char) : List Char :=
  ((l.dropWhile isPySpace).reverse.dropWhile isPySpace).reverse

/-- Model of Python `str.split(sep)` for a one-character separator. -/
def splitOnChar (sep : Char) : List Char → List (List Char)
  | [] => [[]]
  | c :: cs =>
    if c = sep then [] :: splitOnChar sep cs
    else
      match splitOnChar sep cs with
      | [] => [[c]]
      | p :: ps => (c :: p) :: ps

/-- Decimal digit-string reading used by the model of Python `int`. -/
def digitsToNat? (l : List Char) : Option Nat :=
  if l ≠ [] ∧ l.all (fun c => decide (48 ≤ c.toNat ∧ c.toNat ≤ 57)) then
    some (l.foldl (fun a c => a * 10 + (c.toNat - 48)) 0)
  else none

/-- Model of Python `int(s)` on a decimal string: optional surrounding
whitespace, optional sign, then decimal digits; `none` models the
`ValueError` raised on anything else. -/
def pyInt? (l : List Char) : Option Int :=
  match trimChars l with
  | '+' :: rest => (digitsToNat? rest).map Int.ofNat
  | '-' :: rest => (digitsToNat? rest).map (fun n => -(n : Int))
  | t => (digitsToNat? t).map Int.ofNat

/-- Model of the `if ':' in item` / `item.split(':', 1)` pair in
`parse_conditions`: `none` when the item has no colon, otherwise the parts
before and after the first colon. -/
def splitAtColon (item : List Char) : Option (List Char × List Char) :=
  match splitOnChar ':' item with
  | [] => none
  | [_] => none
  | p :: ps => some (p, List.intercalate [':'] ps)

/-- The loop body of `parse_conditions` over the comma-separated items:
an item without a colon is skipped; `int(byte_pos)` raising `ValueError`
aborts the whole parse (the source does not catch it). -/
def parseEntries : List (List Char) → Except String (List Entry)
  | [] => .ok []
  | item :: rest =>
    match splitAtColon (trimChars item) with
    | none => parseEntries rest
    | some (bp, v) =>
      match pyInt? bp with
      | none => .error "ValueError"
      | some n => (parseEntries rest).map (fun es => Entry.mk n (String.mk v) :: es)

/-- Model of `parse_conditions`: split on commas, strip each item, keep the
`Byte:Value` pairs. -/
def parse_conditions (s : String) : Except String (List Entry) :=
  parseEntries (splitOnChar ',' s.data)

/-- Model of `parse_updates` (same format as conditions). -/
def parse_updates (s : String) : Except String (List Entry) :=
  parse_conditions s

/-- Model of `section.startswith('Rule-')`. -/
def isRuleName (nm : String) : Bool :=
  "Rule-".data.isPrefixOf nm.data

/-- Model of the rule-collecting loop of `load_config`: each section is a
`(name, conditionsString, updatesString)` triple; only `Rule-` sections are
considered, a rule with empty conditions or updates is dropped, and an
uncaught `ValueError` from parsing aborts the whole load. -/
def load_rules : List (String × String × String) → Except String (List Rule)
  | [] => .ok []
  | (nm, cs, us) :: rest =>
    if isRuleName nm then do
      let conds ← parse_conditions cs
      let upds ← parse_updates us
      let tail ← load_rules rest
      if conds.isEmpty ∨ upds.isEmpty then pure tail else pure (Rule.mk nm conds upds :: tail)
    else load_rules rest

/-- 0-based window start of a condition/update entry (meaningful when
`1 ≤ StartByte`). -/
def natOff (u : Entry) : Nat := (u.StartByte - 1).toNat

/-- The byte positions written by an update entry. -/
def inWindow (u : Entry) (j : Nat) : Prop :=
  natOff u ≤ j ∧ j < natOff u + (encodeUtf16be u.Value).length

/-- Well-formedness of an entry's window for a record of length `size`:
1-based offset and the whole encoded window inside the record. -/
def entryOK (size : Nat) (u : Entry) : Prop :=
  1 ≤ u.StartByte ∧ natOff u + (encodeUtf16be u.Value).length ≤ size

instance (u : Entry) (j : Nat) : Decidable (inWindow u j) :=
  inferInstanceAs (Decidable (_ ∧ _))

instance (size : Nat) (u : Entry) : Decidable (entryOK size u) :=
  inferInstanceAs (Decidable (_ ∧ _))

theorem natOff_spec {u : Entry} (h : 1 ≤ u.StartByte) :
    u.StartByte - 1 = (natOff u : Int) := by
  unfold natOff
  omega

theorem pyBound_natCast (n k : Nat) : pyBound n (k : Int) = min k n := by
  simp [pyBound]

theorem pySliceGet_natCast (r : List Nat) (k L : Nat) :
    pySliceGet r (k : Int) L = (r.drop k).take L := by
  unfold pySliceGet
  have h1 : ((k : Int) + L) = ((k + L : Nat) : Int) := by push_cast; ring
  rw [h1, pyBound_natCast, pyBound_natCast]
  have htake : r.take (min (k + L) r.length) = r.take (k + L) := by
    rcases le_or_lt (k + L) r.length with h2 | h2
    · rw [Nat.min_eq_left h2]
    · rw [Nat.min_eq_right (le_of_lt h2), List.take_length,
        List.take_of_length_le (le_of_lt h2)]
  rw [htake]
  rcases le_or_lt k r.length with h2 | h2
  · rw [Nat.min_eq_left h2, List.take_drop]
  · rw [Nat.min_eq_right (le_of_lt h2)]
    rw [List.drop_eq_nil_of_le (by simp), List.drop_eq_nil_of_le (le_of_lt h2), List.take_nil]

theorem pySliceSet_natCast (r : List Nat) (k : Nat) (new : List Nat) :
    pySliceSet r (k : Int) new = r.take k ++ new ++ r.drop (k + new.length) := by
  unfold pySliceSet
  dsimp only
  have h1 : ((k : Int) + new.length) = ((k + new.length : Nat) : Int) := by push_cast; ring
  rw [h1, pyBound_natCast, pyBound_natCast]
  have hmax : max (min (k + new.length) r.length) (min k r.length)
      = min (k + new.length) r.length := by omega
  rw [hmax]
  have htake : r.take (min k r.length) = r.take k := by
    rcases le_or_lt k r.length with h2 | h2
    · rw [Nat.min_eq_left h2]
    · rw [Nat.min_eq_right (le_of_lt h2), List.take_length,
        List.take_of_length_le (le_of_lt h2)]
  have hdrop : r.drop (min (k + new.length) r.length) = r.drop (k + new.length) := by
    rcases le_or_lt (k + new.length) r.length with h2 | h2
    · rw [Nat.min_eq_left h2]
    · rw [Nat.min_eq_right (le_of_lt h2), List.drop_length,
        List.drop_eq_nil_of_le (le_of_lt h2)]
  rw [htake, hdrop]

theorem pySliceSet_length (r new : List Nat) (k : Nat) (h : k + new.length ≤ r.length) :
    (pySliceSet r (k : Int) new).length = r.length := by
  rw [pySliceSet_natCast]
  simp only [List.length_append, List.length_take, List.length_drop]
  omega

theorem pySliceGet_of_set (r new : List Nat) (k : Nat) (h : k ≤ r.length) :
    pySliceGet (pySliceSet r (k : Int) new) (k : Int) new.length = new := by
  rw [pySliceSet_natCast, pySliceGet_natCast, List.append_assoc]
  rw [List.drop_left' (by simp [List.length_take]; omega)]
  rw [List.take_left' rfl]

theorem pySliceSet_getElem_frame (r new : List Nat) (k j : Nat)
    (hb : k + new.length ≤ r.length) (hj : j < k ∨ k + new.length ≤ j) :
    (pySliceSet r (k : Int) new)[j]? = r[j]? := by
  rw [pySliceSet_natCast, List.append_assoc]
  have hk : (r.take k).length = k := by simp [List.length_take]; omega
  rcases hj with hj | hj
  · rw [List.getElem?_append_left (by omega), List.getElem?_take_of_lt hj]
  · rw [List.getElem?_append_right (by omega), hk,
      List.getElem?_append_right (by omega), List.getElem?_drop]
    congr 1
    omega

theorem applyUpd_record (nm : String) (st : EvalState) (u : Entry) :
    (applyUpd nm st u).record = applyUpdRecord st.record u := rfl

theorem applyUpd_fired (nm : String) (st : EvalState) (u : Entry) :
    (applyUpd nm st u).fired = st.fired := rfl

theorem applyUpd_changes_length (nm : String) (st : EvalState) (u : Entry) :
    (applyUpd nm st u).changes.length = st.changes.length + 1 := by
  simp [applyUpd]

theorem foldUpd_components (nm : String) (us : List Entry) : ∀ (st : EvalState),
    (us.foldl (applyUpd nm) st).record = us.foldl applyUpdRecord st.record ∧
    (us.foldl (applyUpd nm) st).fired = st.fired ∧
    (us.foldl (applyUpd nm) st).changes.length = st.changes.length + us.length := by
  induction us with
  | nil => intro st; simp
  | cons u us ih =>
    intro st
    obtain ⟨h1, h2, h3⟩ := ih (applyUpd nm st u)
    refine ⟨?_, ?_, ?_⟩
    · rw [List.foldl_cons, h1, applyUpd_record, List.foldl_cons]
    · rw [List.foldl_cons, h2, applyUpd_fired]
    · rw [List.foldl_cons, h3, applyUpd_changes_length]
      simp [Nat.add_assoc, Nat.add_comm 1 us.length]

theorem stepRule_match {st : EvalState} {rule : Rule}
    (h : rule.Conditions.all (condMatches st.record) = true) :
    (stepRule st rule).record = rule.Updates.foldl applyUpdRecord st.record ∧
    (stepRule st rule).fired = st.fired ++ [rule.Name] ∧
    (stepRule st rule).changes.length = st.changes.length + rule.Updates.length := by
  obtain ⟨h1, h2, h3⟩ := foldUpd_components rule.Name rule.Updates st
  unfold stepRule
  rw [h, if_pos rfl]
  refine ⟨h1, ?_, h3⟩
  show (List.foldl (applyUpd rule.Name) st rule.Updates).fired ++ [rule.Name] = st.fired ++ [rule.Name]
  rw [h2]

theorem stepRule_nomatch {st : EvalState} {rule : Rule}
    (h : rule.Conditions.all (condMatches st.record) = false) :
    stepRule st rule = st := by
  unfold stepRule
  rw [h]
  rfl

theorem foldl_fired_aux (rules : List Rule) : ∀ (st : EvalState),
    ∃ t, (rules.foldl stepRule st).fired = st.fired ++ t ∧
      (t = [] → rules.foldl stepRule st = st) := by
  induction rules with
  | nil => intro st; exact ⟨[], by simp, fun _ => rfl⟩
  | cons R rest ih =>
    intro st
    by_cases h : R.Conditions.all (condMatches st.record) = true
    · obtain ⟨_, h2, _⟩ := stepRule_match h
      obtain ⟨t, ht, _⟩ := ih (stepRule st R)
      refine ⟨R.Name :: t, ?_, ?_⟩
      · rw [List.foldl_cons, ht, h2]
        simp
      · intro hc
        exact absurd hc (List.cons_ne_nil _ _)
    · have hst : stepRule st R = st := stepRule_nomatch (Bool.eq_false_iff.mpr h)
      obtain ⟨t, ht, hid⟩ := ih st
      refine ⟨t, ?_, ?_⟩
      · rw [List.foldl_cons, hst, ht]
      · intro hc
        rw [List.foldl_cons, hst]
        exact hid hc

theorem evalRules_fired_nil {rules : List Rule} {r : List Nat}
    (h : (evalRules rules r).fired = []) : evalRules rules r = ⟨r, [], []⟩ := by
  obtain ⟨t, ht, hid⟩ := foldl_fired_aux rules ⟨r, [], []⟩
  unfold evalRules at h ⊢
  rw [ht] at h
  simp at h
  exact hid h

theorem applyUpdRecord_eq_natOff {r : List Nat} {u : Entry} (h : 1 ≤ u.StartByte) :
    applyUpdRecord r u = pySliceSet r ((natOff u : Nat) : Int) (encodeUtf16be u.Value) := by
  unfold applyUpdRecord
  rw [natOff_spec h]

theorem applyUpdRecord_length {r : List Nat} {u : Entry} (h : entryOK r.length u) :
    (applyUpdRecord r u).length = r.length := by
  rw [applyUpdRecord_eq_natOff h.1]
  exact pySliceSet_length _ _ _ h.2

theorem foldUpdRecord_length (us : List Entry) : ∀ (r : List Nat),
    (∀ u ∈ us, entryOK r.length u) →
    (us.foldl applyUpdRecord r).length = r.length := by
  induction us with
  | nil => intro r _; rfl
  | cons u us ih =>
    intro r hb
    have hu := hb u (List.mem_cons_self u us)
    have hlen : (applyUpdRecord r u).length = r.length := applyUpdRecord_length hu
    rw [List.foldl_cons, ih (applyUpdRecord r u) (fun v hv => hlen ▸ hb v (List.mem_cons_of_mem u hv)), hlen]

theorem foldUpdRecord_frame (us : List Entry) : ∀ (r : List Nat),
    (∀ u ∈ us, entryOK r.length u) →
    ∀ j, (us.foldl applyUpdRecord r)[j]? ≠ r[j]? → ∃ u ∈ us, inWindow u j := by
  induction us with
  | nil => intro r _ j hj; exact absurd rfl hj
  | cons u us ih =>
    intro r hb j hj
    have hu := hb u (List.mem_cons_self u us)
    have hlen : (applyUpdRecord r u).length = r.length := applyUpdRecord_length hu
    by_cases hw : inWindow u j
    · exact ⟨u, List.mem_cons_self u us, hw⟩
    · have hframe : (applyUpdRecord r u)[j]? = r[j]? := by
        rw [applyUpdRecord_eq_natOff hu.1]
        refine pySliceSet_getElem_frame _ _ _ _ hu.2 ?_
        unfold inWindow at hw
        omega
      rw [List.foldl_cons] at hj
      have hj' : (us.foldl applyUpdRecord (applyUpdRecord r u))[j]? ≠ (applyUpdRecord r u)[j]? := by
        rw [hframe]
        exact hj
      obtain ⟨v, hv, hvw⟩ := ih (applyUpdRecord r u)
        (fun v hv => hlen ▸ hb v (List.mem_cons_of_mem u hv)) j hj'
      exact ⟨v, List.mem_cons_of_mem u hv, hvw⟩

theorem evalState_frame_aux (rules : List Rule) : ∀ (st : EvalState),
    (∀ rule ∈ rules, ∀ u ∈ rule.Updates, entryOK st.record.length u) →
    (rules.foldl stepRule st).record.length = st.record.length ∧
    ∀ j, (rules.foldl stepRule st).record[j]? ≠ st.record[j]? →
      ∃ rule ∈ rules, rule.Name ∈ (rules.foldl stepRule st).fired ∧
        ∃ u ∈ rule.Updates, inWindow u j := by
  induction rules with
  | nil => intro st _; exact ⟨rfl, fun j hj => absurd rfl hj⟩
  | cons R rest ih =>
    intro st hb
    by_cases h : R.Conditions.all (condMatches st.record) = true
    · obtain ⟨h1, h2, _⟩ := stepRule_match h
      have hRb : ∀ u ∈ R.Updates, entryOK st.record.length u :=
        hb R (List.mem_cons_self R rest)
      have hlen1 : (stepRule st R).record.length = st.record.length := by
        rw [h1]
        exact foldUpdRecord_length R.Updates st.record hRb
      obtain ⟨hlen2, hframe2⟩ := ih (stepRule st R)
        (fun rule hr u hu => hlen1 ▸ hb rule (List.mem_cons_of_mem R hr) u hu)
      obtain ⟨t, ht, _⟩ := foldl_fired_aux rest (stepRule st R)
      refine ⟨?_, ?_⟩
      · rw [List.foldl_cons, hlen2, hlen1]
      · intro j hj
        rw [List.foldl_cons] at hj
        by_cases hj1 : (rest.foldl stepRule (stepRule st R)).record[j]? = (stepRule st R).record[j]?
        · have hj2 : (stepRule st R).record[j]? ≠ st.record[j]? := by
            rw [← hj1]
            exact hj
          rw [h1] at hj2
          obtain ⟨u, hu, huw⟩ := foldUpdRecord_frame R.Updates st.record hRb j hj2
          refine ⟨R, List.mem_cons_self R rest, ?_, u, hu, huw⟩
          rw [List.foldl_cons, ht, h2]
          simp
        · obtain ⟨rule, hr, hrf, u, hu, huw⟩ := hframe2 j hj1
          refine ⟨rule, List.mem_cons_of_mem R hr, ?_, u, hu, huw⟩
          rw [List.foldl_cons]
          exact hrf
    · have hst : stepRule st R = st := stepRule_nomatch (Bool.eq_false_iff.mpr h)
      obtain ⟨hlen2, hframe2⟩ := ih st (fun rule hr u hu => hb rule (List.mem_cons_of_mem R hr) u hu)
      refine ⟨?_, ?_⟩
      · rw [List.foldl_cons, hst]
        exact hlen2
      · intro j hj
        rw [List.foldl_cons, hst] at hj ⊢
        obtain ⟨rule, hr, hrf, u, hu, huw⟩ := hframe2 j hj
        exact ⟨rule, List.mem_cons_of_mem R hr, hrf, u, hu, huw⟩

theorem evalRules_length (rules : List Rule) (r : List Nat)
    (hb : ∀ rule ∈ rules, ∀ u ∈ rule.Updates, entryOK r.length u) :
    (evalRules rules r).record.length = r.length := by
  unfold evalRules
  exact (evalState_frame_aux rules ⟨r, [], []⟩ hb).1

theorem evalRules_frame (rules : List Rule) (r : List Nat)
    (hb : ∀ rule ∈ rules, ∀ u ∈ rule.Updates, entryOK r.length u) :
    ∀ j, (evalRules rules r).record[j]? ≠ r[j]? →
      ∃ rule ∈ rules, rule.Name ∈ (evalRules rules r).fired ∧
        ∃ u ∈ rule.Updates, inWindow u j := by
  unfold evalRules
  exact (evalState_frame_aux rules ⟨r, [], []⟩ hb).2

theorem processRecord_header {hm dm : Nat} {rules : List Rule} {record : List Nat}
    (h : record.headD 0 = hm) :
    processRecord hm dm rules record = ⟨record, [.header], []⟩ := by
  unfold processRecord
  dsimp only
  rw [if_pos h]

theorem processRecord_unknown {hm dm : Nat} {rules : List Rule} {record : List Nat}
    (h1 : record.headD 0 ≠ hm) (h2 : record.headD 0 ≠ dm) :
    processRecord hm dm rules record = ⟨record, [], []⟩ := by
  unfold processRecord
  dsimp only
  rw [if_neg h1, if_neg h2]

theorem processRecord_data_fired {hm dm : Nat} {rules : List Rule} {record : List Nat}
    (h1 : record.headD 0 ≠ hm) (h2 : record.headD 0 = dm)
    (h3 : (evalRules rules record).fired ≠ []) :
    processRecord hm dm rules record =
      ⟨(evalRules rules record).record,
       [.updated (evalRules rules record).changes],
       (evalRules rules record).fired⟩ := by
  unfold processRecord
  dsimp only
  rw [if_neg h1, if_pos h2, if_neg (by simp [List.isEmpty_iff, h3])]

theorem processRecord_data_unfired {hm dm : Nat} {rules : List Rule} {record : List Nat}
    (h1 : record.headD 0 ≠ hm) (h2 : record.headD 0 = dm)
    (h3 : (evalRules rules record).fired = []) :
    processRecord hm dm rules record = ⟨record, [], []⟩ := by
  unfold processRecord
  dsimp only
  rw [if_neg h1, if_pos h2, if_pos (by simp [List.isEmpty_iff, h3])]
  have := evalRules_fired_nil h3
  rw [h3, this]

theorem processRecord_out_length {hm dm : Nat} {rules : List Rule} {record : List Nat}
    (hb : ∀ rule ∈ rules, ∀ u ∈ rule.Updates, entryOK record.length u) :
    (processRecord hm dm rules record).out.length = record.length := by
  by_cases h1 : record.headD 0 = hm
  · rw [processRecord_header h1]
  · by_cases h2 : record.headD 0 = dm
    · by_cases h3 : (evalRules rules record).fired = []
      · rw [processRecord_data_unfired h1 h2 h3]
      · rw [processRecord_data_fired h1 h2 h3]
        exact evalRules_length rules record hb
    · rw [processRecord_unknown h1 h2]

theorem processRecord_frame {hm dm : Nat} {rules : List Rule} {record : List Nat}
    (hb : ∀ rule ∈ rules, ∀ u ∈ rule.Updates, entryOK record.length u) :
    ∀ j, (processRecord hm dm rules record).out[j]? ≠ record[j]? →
      ∃ rule ∈ rules, rule.Name ∈ (processRecord hm dm rules record).fired ∧
        ∃ u ∈ rule.Updates, inWindow u j := by
  intro j hj
  by_cases h1 : record.headD 0 = hm
  · rw [processRecord_header h1] at hj
    exact absurd rfl hj
  · by_cases h2 : record.headD 0 = dm
    · by_cases h3 : (evalRules rules record).fired = []
      · rw [processRecord_data_unfired h1 h2 h3] at hj
        exact absurd rfl hj
      · rw [processRecord_data_fired h1 h2 h3] at hj ⊢
        exact evalRules_frame rules record hb j hj
    · rw [processRecord_unknown h1 h2] at hj
      exact absurd rfl hj

theorem chunkRecords_count (size : Nat) (data : List Nat) :
    (chunkRecords size data).length = data.length / size := by
  simp [chunkRecords]

theorem chunk_index_le {size len i : Nat} (h : i < len / size) :
    i * size + size ≤ len :=
  calc i * size + size = (i + 1) * size := by ring
  _ ≤ (len / size) * size := Nat.mul_le_mul_right size (Nat.succ_le_of_lt h)
  _ ≤ len := Nat.div_mul_le_self _ _

theorem mem_chunkRecords_length {size : Nat} {data r : List Nat}
    (h : r ∈ chunkRecords size data) : r.length = size := by
  unfold chunkRecords at h
  obtain ⟨i, hi, hr⟩ := List.mem_map.mp h
  have hi' : i < data.length / size := List.mem_range.mp hi
  have hle : i * size + size ≤ data.length := chunk_index_le hi'
  subst hr
  simp only [List.length_take, List.length_drop]
  omega

theorem chunkRecords_append_extra {size : Nat} (data extra : List Nat)
    (hd : size ∣ data.length) (he : extra.length < size) :
    chunkRecords size (data ++ extra) = chunkRecords size data := by
  have hsz : 0 < size := lt_of_le_of_lt (Nat.zero_le _) he
  obtain ⟨m, hm⟩ := hd
  have hcount : (data ++ extra).length / size = data.length / size := by
    rw [List.length_append, hm, Nat.mul_add_div hsz, Nat.div_eq_of_lt he,
      Nat.mul_div_cancel_left m hsz]
    omega
  unfold chunkRecords
  rw [hcount]
  apply List.map_congr_left
  intro i hi
  have hi' : i < data.length / size := List.mem_range.mp hi
  have hle : i * size + size ≤ data.length := chunk_index_le hi'
  rw [List.drop_append_of_le_length (by omega),
    List.take_append_of_le_length (by simp only [List.length_drop]; omega)]

theorem runResults_length (size hm dm : Nat) (rules : List Rule) (data : List Nat) :
    (runResults size hm dm rules data).length = data.length / size := by
  unfold runResults
  rw [List.length_map, chunkRecords_count]

theorem runOutput_length (size hm dm : Nat) (rules : List Rule) (data : List Nat)
    (hb : ∀ rule ∈ rules, ∀ u ∈ rule.Updates, entryOK size u)
    (hmul : data.length % size = 0) :
    (runOutput size hm dm rules data).length = data.length := by
  unfold runOutput runResults
  rw [List.length_flatten, List.map_map, List.map_map]
  have hmap : (chunkRecords size data).map ((List.length ∘ RecResult.out) ∘ processRecord hm dm rules)
      = (chunkRecords size data).map (fun _ => size) := by
    apply List.map_congr_left
    intro r hr
    have hrl : r.length = size := mem_chunkRecords_length hr
    show (processRecord hm dm rules r).out.length = size
    rw [processRecord_out_length (by rw [hrl]; exact hb), hrl]
  rw [hmap, List.map_const', List.sum_replicate, smul_eq_mul, chunkRecords_count]
  exact Nat.div_mul_cancel (Nat.dvd_of_mod_eq_zero hmul)

theorem encodeChar_bmp {c : Char} (h : c.toNat < 0x10000) :
    encodeChar c = [c.toNat / 256, c.toNat % 256] := by
  unfold encodeChar
  dsimp only
  rw [if_pos h]

theorem encodeChar_length_pos (c : Char) : 0 < (encodeChar c).length := by
  unfold encodeChar
  dsimp only
  split <;> simp

theorem encodeChars_length_pos {l : List Char} (h : l ≠ []) :
    0 < (encodeChars l).length := by
  cases l with
  | nil => exact absurd rfl h
  | cons c cs =>
    show 0 < (encodeChar c ++ encodeChars cs).length
    rw [List.length_append]
    have := encodeChar_length_pos c
    omega

theorem encodeChars_length_bmp {l : List Char} (h : ∀ c ∈ l, c.toNat < 0x10000) :
    (encodeChars l).length = 2 * l.length := by
  induction l with
  | nil => rfl
  | cons c cs ih =>
    show (encodeChar c ++ encodeChars cs).length = _
    rw [List.length_append, encodeChar_bmp (h c (List.mem_cons_self c cs)),
      ih (fun d hd => h d (List.mem_cons_of_mem c hd))]
    simp [List.length_cons]
    ring

theorem decode_encodeChars {l : List Char} (h : ∀ c ∈ l, c.toNat < 0xD800) :
    decodeUtf16be (encodeChars l) = l := by
  induction l with
  | nil => rfl
  | cons c cs ih =>
    have hc : c.toNat < 0xD800 := h c (List.mem_cons_self c cs)
    have hbmp : c.toNat < 0x10000 := by omega
    have hu : c.toNat / 256 * 256 + c.toNat % 256 = c.toNat := by
      have := Nat.div_add_mod c.toNat 256
      omega
    show decodeUtf16be (encodeChar c ++ encodeChars cs) = c :: cs
    rw [encodeChar_bmp hbmp]
    cases cs with
    | nil =>
      show decodeUtf16be [c.toNat / 256, c.toNat % 256] = [c]
      rw [decodeUtf16be]
      rw [hu, if_neg (by omega), Char.ofNat_toNat]
    | cons d ds =>
      have hd : d.toNat < 0x10000 := by
        have := h d (List.mem_cons_of_mem c (List.mem_cons_self d ds))
        omega
      have htail : encodeChars (d :: ds) = encodeChar d ++ encodeChars ds := rfl
      rw [htail, encodeChar_bmp hd]
      show decodeUtf16be (c.toNat / 256 :: c.toNat % 256 :: d.toNat / 256 ::
        d.toNat % 256 :: encodeChars ds) = c :: d :: ds
      rw [decodeUtf16be]
      rw [hu, if_neg (by omega), if_neg (by omega), Char.ofNat_toNat]
      have : (d.toNat / 256 :: d.toNat % 256 :: encodeChars ds)
          = encodeChars (d :: ds) := by
        rw [htail, encodeChar_bmp hd]
        rfl
      rw [this, ih (fun e he => h e (List.mem_cons_of_mem c he))]

theorem condMatches_oob {r : List Nat} {c : Entry} (h1 : 1 ≤ c.StartByte)
    (hnil : c.Value ≠ "") (hoob : r.length < natOff c + (encodeUtf16be c.Value).length) :
    condMatches r c = false := by
  have hdata : c.Value.data ≠ [] := by
    intro hd
    exact hnil (String.ext (by rw [hd]))
  have hpos : 0 < (encodeUtf16be c.Value).length := encodeChars_length_pos hdata
  unfold condMatches
  dsimp only
  rw [natOff_spec h1, pySliceGet_natCast, beq_eq_false_iff_ne]
  intro heq
  have := congrArg List.length heq
  simp only [List.length_take, List.length_drop] at this
  omega

theorem applyUpdRecord_extend {r : List Nat} {u : Entry}
    (h1 : 1 ≤ u.StartByte) (h : r.length ≤ natOff u) :
    applyUpdRecord r u = r ++ encodeUtf16be u.Value := by
  rw [applyUpdRecord_eq_natOff h1, pySliceSet_natCast,
    List.take_of_length_le h, List.drop_eq_nil_of_le (by omega), List.append_nil]

/-- C9: for every text value in the supported domain (in particular all
ASCII digit and punctuation strings used by condition/update values — here
any string of characters below the surrogate range), decoding the UTF-16
big-endian encoding returns the value unchanged, and the encoding maps each
character to one 2-byte big-endian code unit. -/
theorem C9_decode_encode_roundtrip (s : String) (h : ∀ c ∈ s.data, c.toNat < 0xD800) :
    decodeUtf16be (encodeUtf16be s) = s.data ∧
    (encodeUtf16be s).length = 2 * s.data.length := by
  refine ⟨decode_encodeChars h, ?_⟩
  exact encodeChars_length_bmp (fun c hc => lt_trans (h c hc) (by norm_num))

theorem C9_witness :
    (∀ c ∈ ("02" : String).data, c.toNat < 0xD800) ∧
    decodeUtf16be (encodeUtf16be "02") = ("02" : String).data :=
  ⟨by decide, (C9_decode_encode_roundtrip "02" (by decide)).1⟩

/-- C1: when a rule R's conditions all hold on the record buffer at the
moment R is evaluated (after the earlier rules `pre` have run), every one of
R's updates is applied to the record in order (the resulting buffer is the
left fold of R's updates), exactly one change entry is appended per update,
and R's hit counter is incremented by exactly one — a single occurrence of
R.Name is appended to the fired list, regardless of how many updates R
carries; the remaining rules `post` then continue from that state. -/
theorem C1_full_match_applies_updates_hits_once
    (pre post : List Rule) (R : Rule) (r : List Nat)
    (h : R.Conditions.all (condMatches (pre.foldl stepRule ⟨r, [], []⟩).record) = true) :
    evalRules (pre ++ R :: post) r
        = post.foldl stepRule ((pre ++ [R]).foldl stepRule ⟨r, [], []⟩) ∧
    ((pre ++ [R]).foldl stepRule (⟨r, [], []⟩ : EvalState)).record
        = R.Updates.foldl applyUpdRecord (pre.foldl stepRule ⟨r, [], []⟩).record ∧
    ((pre ++ [R]).foldl stepRule (⟨r, [], []⟩ : EvalState)).fired
        = (pre.foldl stepRule ⟨r, [], []⟩).fired ++ [R.Name] ∧
    ((pre ++ [R]).foldl stepRule (⟨r, [], []⟩ : EvalState)).changes.length
        = (pre.foldl stepRule ⟨r, [], []⟩).changes.length + R.Updates.length := by
  have hsplit : (pre ++ [R]).foldl stepRule (⟨r, [], []⟩ : EvalState)
      = stepRule (pre.foldl stepRule ⟨r, [], []⟩) R := by
    rw [List.foldl_append]
    rfl
  obtain ⟨h1, h2, h3⟩ := stepRule_match h
  refine ⟨?_, ?_, ?_, ?_⟩
  · unfold evalRules
    have hl : pre ++ R :: post = (pre ++ [R]) ++ post := by simp
    rw [hl, List.foldl_append]
  · rw [hsplit]
    exact h1
  · rw [hsplit]
    exact h2
  · rw [hsplit]
    exact h3

theorem C1_witness :
    ((⟨"Rule-1", [⟨1, "2"⟩], [⟨3, "A"⟩, ⟨5, "B"⟩]⟩ : Rule).Conditions.all
        (condMatches (([] : List Rule).foldl stepRule ⟨[0, 50, 7, 7, 7, 7], [], []⟩).record)
      = true) ∧
    ((([] : List Rule) ++ [(⟨"Rule-1", [⟨1, "2"⟩], [⟨3, "A"⟩, ⟨5, "B"⟩]⟩ : Rule)]).foldl stepRule
        (⟨[0, 50, 7, 7, 7, 7], [], []⟩ : EvalState)).fired
      = (([] : List Rule).foldl stepRule ⟨[0, 50, 7, 7, 7, 7], [], []⟩).fired ++ ["Rule-1"] :=
  ⟨by decide,
   (C1_full_match_applies_updates_hits_once [] [] ⟨"Rule-1", [⟨1, "2"⟩], [⟨3, "A"⟩, ⟨5, "B"⟩]⟩
     [0, 50, 7, 7, 7, 7] (by decide)).2.2.1⟩

/-- C10: whether a rule fires on a data record is decided by evaluating its
conditions against the record buffer as already mutated in place by the
earlier-declared rules that fired on that record (the state of the fold over
the earlier rules), not against the record's original bytes; consequently an
earlier rule's update can make a later rule's match (second conjunct: Rule-2
does not match the original record yet fires after Rule-1's update) and can
break it (third conjunct: Rule-2 matches the original record yet does not
fire after Rule-1's update). -/
theorem C10_conditions_see_mutated_buffer :
    (∀ (pre : List Rule) (R : Rule) (r : List Nat),
      ((pre ++ [R]).foldl stepRule (⟨r, [], []⟩ : EvalState)).fired
        = (pre.foldl stepRule ⟨r, [], []⟩).fired ++
            (if R.Conditions.all (condMatches (pre.foldl stepRule ⟨r, [], []⟩).record)
             then [R.Name] else [])) ∧
    ((⟨"Rule-2", [⟨2, "5"⟩], [⟨4, "7"⟩]⟩ : Rule).Conditions.all
        (condMatches [50, 0, 48, 0, 48]) = false ∧
     (evalRules [⟨"Rule-1", [⟨2, "0"⟩], [⟨2, "5"⟩]⟩, ⟨"Rule-2", [⟨2, "5"⟩], [⟨4, "7"⟩]⟩]
        [50, 0, 48, 0, 48]).fired = ["Rule-1", "Rule-2"]) ∧
    ((⟨"Rule-2", [⟨2, "0"⟩], [⟨4, "7"⟩]⟩ : Rule).Conditions.all
        (condMatches [50, 0, 48, 0, 48]) = true ∧
     (evalRules [⟨"Rule-1", [⟨2, "0"⟩], [⟨2, "5"⟩]⟩, ⟨"Rule-2", [⟨2, "0"⟩], [⟨4, "7"⟩]⟩]
        [50, 0, 48, 0, 48]).fired = ["Rule-1"]) := by
  refine ⟨?_, ⟨by decide, by decide⟩, ⟨by decide, by decide⟩⟩
  intro pre R r
  rw [List.foldl_append]
  show (stepRule (pre.foldl stepRule ⟨r, [], []⟩) R).fired = _
  by_cases h : R.Conditions.all (condMatches (pre.foldl stepRule ⟨r, [], []⟩).record) = true
  · rw [h, if_pos rfl]
    exact (stepRule_match h).2.1
  · have hf := Bool.eq_false_iff.mpr h
    rw [hf, stepRule_nomatch hf, if_neg (by simp)]
    simp

/-- C5: a record whose first byte equals the header marker byte is written to
the output byte-identical to its input bytes, with no rule evaluation at all,
regardless of the rule set's contents. -/
theorem C5_header_never_mutated
    (size hm dm : Nat) (rules : List Rule) (data : List Nat) (i : Nat) (r : List Nat)
    (hr : (chunkRecords size data)[i]? = some r) (hh : r.headD 0 = hm) :
    (runResults size hm dm rules data)[i]? = some ⟨r, [.header], []⟩ ∧
    (processRecord hm dm rules r).out = r := by
  have hpr : processRecord hm dm rules r = ⟨r, [.header], []⟩ := processRecord_header hh
  constructor
  · unfold runResults
    rw [List.getElem?_map, hr, Option.map_some', hpr]
  · rw [hpr]

theorem C5_witness :
    (chunkRecords 2 [49, 7, 50, 8])[0]? = some [49, 7] ∧
    (([49, 7] : List Nat).headD 0 = 49) ∧
    (runResults 2 49 50 [] [49, 7, 50, 8])[0]? = some ⟨[49, 7], [.header], []⟩ :=
  ⟨by decide, by decide,
   (C5_header_never_mutated 2 49 50 [] [49, 7, 50, 8] 0 [49, 7] (by decide) (by decide)).1⟩

/-- C4: updates compose in rule-declaration order with a last-writer-wins
policy: when a later-declared rule R2 fully matches (after the earlier rules
`rs` have run on the record) and its updates' windows lie inside the record,
then after the whole pass the window of R2's last update holds exactly R2's
encoded value — in particular, on any overlap with bytes written by an
earlier rule, R2's value is what remains in the output record. -/
theorem C4_last_writer_wins
    (rs : List Rule) (R2 : Rule) (r : List Nat) (us : List Entry) (u : Entry)
    (hupd : R2.Updates = us ++ [u])
    (hm2 : R2.Conditions.all (condMatches (rs.foldl stepRule ⟨r, [], []⟩).record) = true)
    (hb : ∀ v ∈ R2.Updates, entryOK (rs.foldl stepRule ⟨r, [], []⟩).record.length v) :
    pySliceGet (evalRules (rs ++ [R2]) r).record (u.StartByte - 1)
        (encodeUtf16be u.Value).length
      = encodeUtf16be u.Value := by
  have hsplit : evalRules (rs ++ [R2]) r = stepRule (rs.foldl stepRule ⟨r, [], []⟩) R2 := by
    unfold evalRules
    rw [List.foldl_append]
    rfl
  obtain ⟨h1, _, _⟩ := stepRule_match hm2
  have hu : entryOK (rs.foldl stepRule ⟨r, [], []⟩).record.length u := by
    refine hb u ?_
    rw [hupd]
    exact List.mem_append_right us (List.mem_cons_self u [])
  have hlen : (us.foldl applyUpdRecord (rs.foldl stepRule ⟨r, [], []⟩).record).length
      = (rs.foldl stepRule ⟨r, [], []⟩).record.length := by
    refine foldUpdRecord_length us _ (fun v hv => hb v ?_)
    rw [hupd]
    exact List.mem_append_left _ hv
  rw [hsplit, h1, hupd, List.foldl_append]
  simp only [List.foldl_cons, List.foldl_nil]
  rw [applyUpdRecord_eq_natOff hu.1, natOff_spec hu.1]
  have h2 := hu.2
  exact pySliceGet_of_set _ _ _ (by rw [hlen]; omega)

theorem C4_witness :
    ((⟨"Rule-2", [⟨2, "X"⟩], [⟨4, "Z"⟩]⟩ : Rule).Conditions.all
        (condMatches ([⟨"Rule-1", [⟨2, "0"⟩], [⟨2, "XY"⟩]⟩].foldl stepRule
          (⟨[50, 0, 48, 0, 48], [], []⟩ : EvalState)).record) = true) ∧
    pySliceGet (evalRules ([⟨"Rule-1", [⟨2, "0"⟩], [⟨2, "XY"⟩]⟩] ++
        [⟨"Rule-2", [⟨2, "X"⟩], [⟨4, "Z"⟩]⟩]) [50, 0, 48, 0, 48]).record
        ((⟨4, "Z"⟩ : Entry).StartByte - 1) (encodeUtf16be (⟨4, "Z"⟩ : Entry).Value).length
      = encodeUtf16be (⟨4, "Z"⟩ : Entry).Value :=
  ⟨by decide,
   C4_last_writer_wins [⟨"Rule-1", [⟨2, "0"⟩], [⟨2, "XY"⟩]⟩] ⟨"Rule-2", [⟨2, "X"⟩], [⟨4, "Z"⟩]⟩
     [50, 0, 48, 0, 48] [] ⟨4, "Z"⟩ rfl (by decide) (by decide)⟩

/-- C2 fails as stated: two concrete refutations.  A run on an input whose
length is not a multiple of RecordSize produces an output shorter than the
input (the 5-byte input yields 4 output bytes), and a run whose fired update
window extends past RecordSize produces an output longer than the input (the
3-byte record grows to 5 bytes), so the output stream does not always have
the input's byte length. -/
theorem C2_counterexample :
    (runOutput 4 49 50 [] [49, 0, 0, 0, 7]).length ≠ ([49, 0, 0, 0, 7] : List Nat).length ∧
    (runOutput 3 49 50 [⟨"Rule-1", [⟨2, "2"⟩], [⟨4, "9"⟩]⟩] [50, 0, 50]).length
      ≠ ([50, 0, 50] : List Nat).length := ⟨by decide, by decide⟩

/-- C2 (amended): if the input length is an exact multiple of RecordSize and
every configured update window lies inside `[0, RecordSize)`, then the output
stream has the input's byte length, one output record per input record in the
same order, and each output record is byte-identical to its input record
except at positions inside the window of some update of a rule that fired on
that record. -/
theorem C2_frame_of_wellformed_run
    (size hm dm : Nat) (rules : List Rule) (data : List Nat)
    (hmul : data.length % size = 0)
    (hb : ∀ rule ∈ rules, ∀ u ∈ rule.Updates, entryOK size u) :
    (runOutput size hm dm rules data).length = data.length ∧
    (runResults size hm dm rules data).length = (chunkRecords size data).length ∧
    List.Forall₂ (fun rin res =>
        res.out.length = rin.length ∧
        ∀ j, res.out[j]? ≠ rin[j]? →
          ∃ rule ∈ rules, rule.Name ∈ res.fired ∧ ∃ u ∈ rule.Updates, inWindow u j)
      (chunkRecords size data) (runResults size hm dm rules data) := by
  refine ⟨runOutput_length size hm dm rules data hb hmul, ?_, ?_⟩
  · unfold runResults
    rw [List.length_map]
  · unfold runResults
    rw [List.forall₂_map_right_iff, List.forall₂_same]
    intro r hr
    have hrl : r.length = size := mem_chunkRecords_length hr
    have hb' : ∀ rule ∈ rules, ∀ u ∈ rule.Updates, entryOK r.length u := by
      rw [hrl]
      exact hb
    exact ⟨processRecord_out_length hb', processRecord_frame hb'⟩

theorem C2_witness :
    (([50, 0, 50, 49, 7, 8] : List Nat).length % 3 = 0) ∧
    (∀ rule ∈ [(⟨"Rule-1", [⟨2, "2"⟩], [⟨2, "9"⟩]⟩ : Rule)], ∀ u ∈ rule.Updates, entryOK 3 u) ∧
    (runOutput 3 49 50 [⟨"Rule-1", [⟨2, "2"⟩], [⟨2, "9"⟩]⟩] [50, 0, 50, 49, 7, 8]).length
      = ([50, 0, 50, 49, 7, 8] : List Nat).length :=
  ⟨by decide, by decide,
   (C2_frame_of_wellformed_run 3 49 50 [⟨"Rule-1", [⟨2, "2"⟩], [⟨2, "9"⟩]⟩]
     [50, 0, 50, 49, 7, 8] (by decide) (by decide)).1⟩

/-- C3 fails as stated: on a 3-byte input with RecordSize 2 the run does not
fail at all — it completes normally, writes the single full record and
silently drops the trailing byte. -/
theorem C3_counterexample :
    (([49, 0, 7] : List Nat).length % 2 ≠ 0) ∧
    runOutput 2 49 50 [] [49, 0, 7] = [49, 0] := ⟨by decide, by decide⟩

/-- C3 (amended): a truncated trailing record is silently ignored, never an
error: exactly `floor(length / RecordSize)` records are processed, and
appending fewer than RecordSize remainder bytes to a whole number of records
changes neither the records read nor the bytes written. -/
theorem C3_remainder_silently_ignored
    (size hm dm : Nat) (rules : List Rule) (data extra : List Nat)
    (hd : size ∣ data.length) (he : extra.length < size) :
    chunkRecords size (data ++ extra) = chunkRecords size data ∧
    runOutput size hm dm rules (data ++ extra) = runOutput size hm dm rules data ∧
    (chunkRecords size (data ++ extra)).length = (data ++ extra).length / size := by
  have h1 := chunkRecords_append_extra data extra hd he
  refine ⟨h1, ?_, chunkRecords_count _ _⟩
  unfold runOutput runResults
  rw [h1]

theorem C3_witness :
    (2 ∣ ([49, 0] : List Nat).length) ∧ (([7] : List Nat).length < 2) ∧
    chunkRecords 2 ([49, 0] ++ [7]) = chunkRecords 2 [49, 0] :=
  ⟨by decide, by decide,
   (C3_remainder_silently_ignored 2 49 50 [] [49, 0] [7] (by decide) (by decide)).1⟩

/-- C6 fails as stated: a record with an unknown marker byte (first byte 99,
neither header 49 nor data 50) is written through unchanged but produces zero
audit log entries, not exactly one. -/
theorem C6_counterexample :
    processRecord 49 50 [] [99, 0] = ⟨[99, 0], [], []⟩ ∧
    (processRecord 49 50 [] [99, 0]).logLines.length = 0 := ⟨by decide, by decide⟩

/-- C6 (amended): per record the audit log contains one `Header` entry for a
header record and one `Updated` entry (with its change lines) for a data
record on which at least one rule fired; a record with an unknown marker byte
and a data record with zero firing rules produce no log entry at all, though
both are still written to the output unchanged. -/
theorem C6_log_entries_per_record
    (hm dm : Nat) (rules : List Rule) (record : List Nat) :
    (record.headD 0 = hm → processRecord hm dm rules record = ⟨record, [.header], []⟩) ∧
    (record.headD 0 ≠ hm → record.headD 0 ≠ dm →
      processRecord hm dm rules record = ⟨record, [], []⟩) ∧
    (record.headD 0 ≠ hm → record.headD 0 = dm → (evalRules rules record).fired = [] →
      processRecord hm dm rules record = ⟨record, [], []⟩) ∧
    (record.headD 0 ≠ hm → record.headD 0 = dm → (evalRules rules record).fired ≠ [] →
      (processRecord hm dm rules record).logLines
          = [.updated (evalRules rules record).changes] ∧
      (processRecord hm dm rules record).out = (evalRules rules record).record) := by
  refine ⟨processRecord_header, processRecord_unknown, processRecord_data_unfired, ?_⟩
  intro h1 h2 h3
  rw [processRecord_data_fired h1 h2 h3]
  exact ⟨rfl, rfl⟩

theorem C6_witness :
    (([99, 0, 1] : List Nat).headD 0 ≠ 49) ∧ (([99, 0, 1] : List Nat).headD 0 ≠ 50) ∧
    processRecord 49 50 [⟨"Rule-1", [⟨1, ""⟩], [⟨1, "5"⟩]⟩] [99, 0, 1] = ⟨[99, 0, 1], [], []⟩ :=
  ⟨by decide, by decide,
   (C6_log_entries_per_record 49 50 [⟨"Rule-1", [⟨1, ""⟩], [⟨1, "5"⟩]⟩] [99, 0, 1]).2.1
     (by decide) (by decide)⟩

/-- C7 fails as stated: a rule whose update window `[5, 7)` extends past
RecordSize 3 is loaded without any error, and the run neither aborts nor
stays inside the record: the update writes past the record end, growing the
3-byte record to 5 output bytes. -/
theorem C7_counterexample :
    load_rules [("Rule-1", "2:2", "6:9")] = .ok [⟨"Rule-1", [⟨2, "2"⟩], [⟨6, "9"⟩]⟩] ∧
    runOutput 3 49 50 [⟨"Rule-1", [⟨2, "2"⟩], [⟨6, "9"⟩]⟩] [50, 0, 50]
      = [50, 0, 50, 0, 57] := ⟨by decide, by decide⟩

/-- C7 (amended): no window bound is checked at load or run time and no
FatalError exists; instead, a condition with a non-empty value whose window
extends past the record end simply never matches (the short slice read
differs from the expected bytes), and an update whose 0-based offset is at or
past the record end appends its encoded bytes to the record, growing the
buffer beyond RecordSize. -/
theorem C7_no_bounds_check
    : (∀ (r : List Nat) (c : Entry), 1 ≤ c.StartByte → c.Value ≠ "" →
        r.length < natOff c + (encodeUtf16be c.Value).length → condMatches r c = false) ∧
      (∀ (r : List Nat) (u : Entry), 1 ≤ u.StartByte → r.length ≤ natOff u →
        applyUpdRecord r u = r ++ encodeUtf16be u.Value) :=
  ⟨fun _ _ h1 h2 h3 => condMatches_oob h1 h2 h3,
   fun _ _ h1 h2 => applyUpdRecord_extend h1 h2⟩

theorem C7_witness :
    (([50, 0, 50] : List Nat).length < natOff ⟨2, "23"⟩ + (encodeUtf16be "23").length) ∧
    condMatches [50, 0, 50] ⟨2, "23"⟩ = false ∧
    applyUpdRecord [1, 2] ⟨3, "9"⟩ = [1, 2] ++ encodeUtf16be "9" :=
  ⟨by decide,
   C7_no_bounds_check.1 [50, 0, 50] ⟨2, "23"⟩ (by decide) (by decide) (by decide),
   C7_no_bounds_check.2 [1, 2] ⟨3, "9"⟩ (by decide) (by decide)⟩

/-- C8 fails as stated: a rule entry with a non-integer offset (`x:1`) does
not yield a per-rule ConfigError with the load continuing — the uncaught
`ValueError` aborts the entire load, so Rule-2, which loads fine on its own,
is lost as well. -/
theorem C8_counterexample :
    load_rules [("Rule-1", "x:1", "3:b"), ("Rule-2", "2:a", "3:b")] = .error "ValueError" ∧
    load_rules [("Rule-2", "2:a", "3:b")] = .ok [⟨"Rule-2", [⟨2, "a"⟩], [⟨3, "b"⟩]⟩] :=
  ⟨by decide, by decide⟩

/-- C8 (amended): a condition/update item without a colon is silently
skipped (the rule is excluded only if no valid entries remain), while an item
whose offset part is not an integer raises an uncaught error that aborts the
entire configuration load, losing all remaining rules. -/
theorem C8_malformed_entry_behaviour :
    (∀ (item : List Char) (rest : List (List Char)),
        splitAtColon (trimChars item) = none →
        parseEntries (item :: rest) = parseEntries rest) ∧
    (∀ (item : List Char) (rest : List (List Char)) (bp v : List Char),
        splitAtColon (trimChars item) = some (bp, v) → pyInt? bp = none →
        parseEntries (item :: rest) = .error "ValueError") ∧
    (∀ (nm cs us : String) (rest : List (String × String × String)) (e : String),
        isRuleName nm = true → parse_conditions cs = .error e →
        load_rules ((nm, cs, us) :: rest) = .error e) := by
  refine ⟨?_, ?_, ?_⟩
  · intro item rest h
    simp only [parseEntries, h]
  · intro item rest bp v h h2
    simp only [parseEntries, h, h2]
  · intro nm cs us rest e h he
    unfold load_rules
    rw [h, if_pos rfl, he]
    rfl

theorem C8_witness :
    (splitAtColon (trimChars ("x:1" : String).data)
        = some (("x" : String).data, ("1" : String).data)) ∧
    (pyInt? ("x" : String).data = none) ∧
    parseEntries [("x:1" : String).data, ("2:3" : String).data] = .error "ValueError" ∧
    load_rules [("Rule-1", "x:1", "3:b"), ("Rule-2", "2:a", "3:b")] = .error "ValueError" :=
  ⟨by decide, by decide,
   C8_malformed_entry_behaviour.2.1 ("x:1" : String).data [("2:3" : String).data]
     ("x" : String).data ("1" : String).data (by decide) (by decide),
   C8_malformed_entry_behaviour.2.2 "Rule-1" "x:1" "3:b" [("Rule-2", "2:a", "3:b")]
     "ValueError" (by decide) (by decide)⟩

end DatUpdater
